import Mathlib

/-!
# Verification of the bot_side_plugin publish / schedule / monitor pipeline

A shallow embedding, in Lean 4, of the pure logic of the repository's five
Python source files:

* `src/publish_command.py` — `_safe_int`, `_publish_remote`, and the local
  fallback publish of `QQBlogPublishCommand.execute`;
* `src/scheduler.py` — `BlogPublishScheduler`'s poll (`_schedule_loop` body),
  `_publish_content`'s local fallback, `_process_queue_task`, `_is_item_due`;
* `src/monitor.py` — `CommentMonitor._check_comments`, `_should_skip`,
  `_mark_processed`, `_cleanup_cache`;
* `src/content_generator.py` — `_parse_llm_output`.

Machine integers are `Int`/`Nat` (Python ints are unbounded), Python strings
are Lean `String`s manipulated through their `List Char` code points (Python
strings index by code point), Python dicts (insertion-ordered, unique keys)
are association lists, and the network / LLM / clock collaborators are passed
in as explicit data (a response value, an oracle per call).  Fallible code
returns `Option`.
-/

/-! ## Python string primitives

The Python string operations the sources use (`splitlines`, `strip`,
`startswith`, one-shot `replace`, `in`, lexicographic `>=`, slicing),
re-implemented structurally over the code-point list so that every
definition evaluates by `rfl`/`decide`.  We model `str.splitlines` for
`"\n"`-separated text (the only separator the parsed LLM output and the
claims use).
-/

/-- The characters `str.strip()` removes (Python's ASCII whitespace set). -/
def isPySpace (c : Char) : Bool :=
  c = ' ' || c = '\t' || c = '\n' || c = '\r' || c = '\x0b' || c = '\x0c'

/-- Split a code-point list at every occurrence of `sep` (like
`str.split(sep)`: `n` separators give `n+1` segments). -/
def chSplit (sep : Char) : List Char → List (List Char)
  | [] => [[]]
  | c :: rest =>
    match chSplit sep rest with
    | [] => [[c]]
    | h :: t => if c = sep then [] :: h :: t else (c :: h) :: t

/-- `str.splitlines()` for `"\n"`-separated text: empty string gives no
lines, and the segment after a trailing newline is not a line. -/
def pySplitlines (s : String) : List String :=
  if s.isEmpty then []
  else
    let parts := (chSplit '\n' s.data).map List.asString
    match parts.reverse with
    | "" :: rest => rest.reverse
    | _ => parts

/-- `str.strip()`: drop leading and trailing whitespace. -/
def pyStrip (s : String) : String :=
  (((s.data.dropWhile isPySpace).reverse.dropWhile isPySpace).reverse).asString

/-- `str.startswith(pat)`. -/
def pyStartsWith (s pat : String) : Bool :=
  pat.data.isPrefixOf s.data

/-- `s.replace(pat, "", 1)`: remove the first occurrence of `pat` (nonempty)
from `s`. -/
def chRemoveFirst (pat : List Char) : List Char → List Char
  | [] => []
  | c :: rest =>
    if pat.isPrefixOf (c :: rest) then (c :: rest).drop pat.length
    else c :: chRemoveFirst pat rest

/-- `s.replace(pat, "", 1)` on strings. -/
def pyRemoveFirst (s pat : String) : String :=
  (chRemoveFirst pat.data s.data).asString

/-- `pat in s` (substring test; the sources only call it with `pat ≠ ""`). -/
def chContainsSub (pat : List Char) : List Char → Bool
  | [] => pat.isPrefixOf []
  | c :: rest => pat.isPrefixOf (c :: rest) || chContainsSub pat rest

/-- `pat in s` on strings. -/
def pyInStr (pat s : String) : Bool :=
  chContainsSub pat.data s.data

/-- Python's `<` on strings: lexicographic comparison of code points. -/
def chLt : List Char → List Char → Bool
  | [], [] => false
  | [], _ :: _ => true
  | _ :: _, [] => false
  | a :: as, b :: bs =>
    if a.val < b.val then true else if b.val < a.val then false else chLt as bs

/-- Python's `a >= b` on strings (the scheduler's `"HH:MM"` comparison). -/
def pyStrGe (a b : String) : Bool :=
  !(chLt a.data b.data)

/-- `max(l, default=d)` on Python ints. -/
def pyMaxD (l : List Int) (d : Int) : Int :=
  match l with
  | [] => d
  | x :: xs => xs.foldl max x

/-! ## Posts Store (`publish_command.py`, also used by `scheduler.py`)

A post record of the local posts JSON file.  The `id` field holds `some n`
when `str(value)` parses as a Python int (missing `id` defaults to `0`,
hence `some 0`); `none` stands for a value `int(str(·))` rejects, which
`_safe_int` maps to its default `0`.
-/

structure Post where
  id : Option Int
  title : String
  summary : String
  content : String
  createdAt : String
  deriving DecidableEq, Repr

/-- `_safe_int(str(x.get("id", 0)))`: the parsed id, or `0`. -/
def safeInt (o : Option Int) : Int :=
  o.getD 0

/-- `content[:120] + ("..." if len(content) > 120 else "")`. -/
def pySummary (content : String) : String :=
  (content.data.take 120).asString ++ (if 120 < content.data.length then "..." else "")

/-- The local fallback publish, `QQBlogPublishCommand.execute` lines 166–178
(the identical block appears in `QQBlogGenerateCommand.execute` and in
`BlogPublishScheduler._publish_content` lines 199–214): compute
`new_id = max(ids, default=0) + 1`, append the new record, and return the
rewritten list together with `new_id`.  A missing or unreadable posts file
loads as `[]` (`_load_posts`). -/
def appendLocalPost (posts : List Post) (title content createdAt : String) :
    List Post × Int :=
  let maxId := pyMaxD (posts.map fun p => safeInt p.id) 0
  let newId := maxId + 1
  let newPost : Post :=
    { id := some newId, title := title, summary := pySummary content,
      content := content, createdAt := createdAt }
  (posts ++ [newPost], newId)

/-! ## Remote publisher (`_publish_remote`, publish_command.py lines 63–90) -/

/-- The application-level JSON envelope `{code, data}` of the blog API; a
missing `code` is `none`, `data` is `none` when null or missing, and
`data.id` is `some n` when present as an int. -/
structure ApiPostData where
  id : Option Int
  deriving DecidableEq, Repr

structure ApiBody where
  code : Option Int
  data : Option ApiPostData
  deriving DecidableEq, Repr

/-- What one awaited POST can come back as: a raised transport exception, or
an HTTP response with a status code and a body (`none` when `resp.json()`
raises). -/
inductive HttpOutcome where
  | exn : HttpOutcome
  | resp : Nat → Option ApiBody → HttpOutcome
  deriving DecidableEq, Repr

/-- `_publish_remote`: one POST to `{base}/api/v1/posts`; `None` for a blank
URL, any exception, an HTTP status `>= 400`, a non-zero (or missing)
application code, or a null/missing `data.id`; otherwise the new post id.
No retry: the function issues exactly one request, embodied here by its
single `HttpOutcome` argument. -/
def publishRemote (apiUrl : String) (outcome : HttpOutcome) : Option Int :=
  if apiUrl = "" then none
  else
    match outcome with
    | .exn => none
    | .resp status body =>
      if 400 ≤ status then none
      else
        match body with
        | none => none
        | some b =>
          if b.code ≠ some 0 then none
          else
            match b.data with
            | none => none
            | some record => record.id

/-! ## LLM output parse (`_parse_llm_output`, content_generator.py lines 108–125) -/

/-- The per-line body of `_parse_llm_output`'s loop, acting on the running
`(title, content)` pair: a `标题:` line (re)sets the title, a `正文:` line
(re)sets the content, and any other line is appended into the content only
while the content is still empty and a title has been seen. -/
def parseStep (acc : String × String) (line : String) : String × String :=
  if pyStartsWith line "标题:" then (pyStrip (pyRemoveFirst line "标题:"), acc.2)
  else if pyStartsWith line "正文:" then (acc.1, pyStrip (pyRemoveFirst line "正文:"))
  else if acc.2 = "" ∧ acc.1 ≠ "" then (acc.1, pyStrip (acc.2 ++ "\n" ++ line))
  else acc

/-- `_parse_llm_output(text, fallback_title)`: fold `parseStep` over the
lines; an empty final title falls back to `fallback_title`, an empty final
content falls back to the whole stripped text. -/
def parseLlmOutput (text fallbackTitle : String) : String × String :=
  if text = "" then (fallbackTitle, "")
  else
    let r := (pySplitlines text).foldl parseStep ("", "")
    (if r.1 = "" then fallbackTitle else r.1,
     if r.2 = "" then pyStrip text else r.2)

/-! ## Publish scheduler poll (`BlogPublishScheduler._schedule_loop`,
scheduler.py lines 115–161) -/

/-- A configured task `{time, type, topic?}` (`topic` defaults to `""` in
`_generate_task_id`). -/
structure STask where
  ttype : String
  time : String
  topic : String
  deriving DecidableEq, Repr

/-- `_generate_task_id`: the task's deterministic id.  The source hashes
`f"{type}-{time}-{topic}"` with md5; we model the hex digest by its preimage
(md5 is treated as injective, so equality of ids coincides). -/
def generateTaskId (t : STask) : String :=
  t.ttype ++ "-" ++ t.time ++ "-" ++ t.topic

/-- Insertion-ordered dict lookup (`d.get(k)`). -/
def lookupD (d : List (String × α)) (k : String) : Option α :=
  (d.find? fun p => p.1 = k).map Prod.snd

/-- Insertion-ordered dict store (`d[k] = v`): update in place, else append. -/
def dictSet (d : List (String × α)) (k : String) (v : α) : List (String × α) :=
  match d with
  | [] => [(k, v)]
  | p :: rest => if p.1 = k then (k, v) :: rest else p :: dictSet rest k v

/-- One poll of `_schedule_loop` over the configured task list: the body of
the `for task in tasks` loop at the local wall clock `(dateStr, timeStr)`.
A task with a falsy `time` is skipped; a task whose id already maps to
today's date is skipped; otherwise it fires once `timeStr >= task.time`
(Python string comparison).  `execOk t` tells whether `_execute_task t`
returns without raising; only then is today's date recorded in the status
map.  Returns the updated status map and the fired tasks in order. -/
def schedulePoll (dateStr timeStr : String) (execOk : STask → Bool) :
    List STask → List (String × String) → List (String × String) × List STask
  | [], status => (status, [])
  | t :: ts, status =>
    if t.time = "" then schedulePoll dateStr timeStr execOk ts status
    else if lookupD status (generateTaskId t) = some dateStr then
      schedulePoll dateStr timeStr execOk ts status
    else if pyStrGe timeStr t.time then
      if execOk t then
        let r := schedulePoll dateStr timeStr execOk ts
          (dictSet status (generateTaskId t) dateStr)
        (r.1, t :: r.2)
      else
        let r := schedulePoll dateStr timeStr execOk ts status
        (r.1, t :: r.2)
    else schedulePoll dateStr timeStr execOk ts status

/-! ## Queue task (`BlogPublishScheduler._process_queue_task`,
scheduler.py lines 239–289) -/

/-- A queue item of the scheduled-posts JSON file.  `publishAt` is `none`
when the `publish_at` field is falsy, `some none` when present but
`datetime.fromisoformat` rejects it, and `some (some t)` when it parses to
the instant `t` (timestamps as integers). -/
structure QItem where
  title : String
  content : String
  publishAt : Option (Option Int)
  deriving DecidableEq, Repr

/-- `_is_item_due(item, now)`: due when `publish_at` is falsy or
unparseable, else when the parsed instant is `<= now`. -/
def isItemDue (item : QItem) (now : Int) : Bool :=
  match item.publishAt with
  | none => true
  | some none => true
  | some (some t) => t ≤ now

/-- The collaborators one queue item can consume: the result of
`generate_post_from_messages` when the item lacks title or content
(`none` = generation failed), and whether `_publish_content` returns True
for this item's publish attempt. -/
structure QOracle where
  genResult : Option (String × String)
  pubOk : Bool
  deriving DecidableEq, Repr

/-- The `for item in queue` loop of `_process_queue_task`, carrying
`published_count`: an item beyond the per-run cap or not yet due is
retained; a due item with blank (stripped) title or content first tries
generation — on generation failure it is dropped (`continue`) — and a
publish failure retains the item.  Returns the retained items (in order)
and the final `published_count`. -/
def processQueue (now : Int) (maxPosts : Nat) :
    List (QItem × QOracle) → Nat → List QItem × Nat
  | [], count => ([], count)
  | (item, orc) :: rest, count =>
    if maxPosts ≤ count then
      let r := processQueue now maxPosts rest count
      (item :: r.1, r.2)
    else if !(isItemDue item now) then
      let r := processQueue now maxPosts rest count
      (item :: r.1, r.2)
    else if pyStrip item.title = "" || pyStrip item.content = "" then
      match orc.genResult with
      | none => processQueue now maxPosts rest count
      | some _ =>
        if orc.pubOk then processQueue now maxPosts rest (count + 1)
        else
          let r := processQueue now maxPosts rest count
          (item :: r.1, r.2)
    else if orc.pubOk then processQueue now maxPosts rest (count + 1)
    else
      let r := processQueue now maxPosts rest count
      (item :: r.1, r.2)

/-- `_process_queue_task`: run the loop from `published_count = 0` on the
loaded queue (`maxPosts` is already `max(1, config)`); the retained list is
what `_save_queue` persists (the write is skipped when nothing changed,
which leaves the same list on disk). -/
def processQueueTask (queue : List (QItem × QOracle)) (maxPosts : Nat)
    (now : Int) : List QItem × Nat :=
  processQueue now maxPosts queue 0

/-! ## Comment monitor (`monitor.py`)

`CommentMonitor`'s mutable state is `_last_since`, `_processed_cache`
(`comment_id → last-seen wall-clock time`) and `_processed_counts`
(`comment_id → reply count`); both dicts are insertion-ordered with unique
keys.  One call of `_check_comments` is a pure transition on that state once
the fetched comments, the per-comment collaborator results and the clock
readings are passed in as data.
-/

/-- The configuration keys `_check_comments`, `_should_skip` and
`_cleanup_cache` read. -/
structure MonCfg where
  pluginEnable : Bool
  monitorEnable : Bool
  enableDedup : Bool
  enableReply : Bool
  enableReview : Bool
  forbiddenWords : List String
  allowedPostIds : List String
  blockedNames : List String
  maxReplies : Int
  ttl : Int
  cacheSize : Int
  deriving DecidableEq, Repr

/-- A fetched comment, fields already coerced with `str(...)` as the source
does; `createdAt` is `some t` when `_parse_created_at` parses the
`created_at` value to the instant `t`, else `none`. -/
structure MComment where
  id : String
  postId : String
  content : String
  visitorName : String
  createdAt : Option Int
  deriving DecidableEq, Repr

/-- One comment's slice of the cycle's environment: the `int(time.time())`
fallback used when `created_at` does not parse, the reply
`_generate_reply` returns (`""` on failure), whether `_submit_reply`
returns True, and the `time.time()` stamp `_mark_processed` would record. -/
structure CEvent where
  c : MComment
  nowFallback : Int
  replyText : String
  submitOk : Bool
  markTime : Int
  deriving DecidableEq, Repr

/-- `CommentMonitor`'s mutable state across cycles. -/
structure MonState where
  lastSince : Int
  cache : List (String × Int)
  counts : List (String × Int)
  deriving DecidableEq, Repr

/-- `_should_skip(comment)` under cache/counts: already-processed (only when
dedup is enabled), forbidden word in the content, post-id allow-list,
visitor block-list, and the per-comment reply cap, in the source's order. -/
def shouldSkip (cfg : MonCfg) (cache : List (String × Int))
    (counts : List (String × Int)) (c : MComment) : Bool :=
  (cfg.enableDedup && (lookupD cache c.id).isSome)
  || cfg.forbiddenWords.any (fun w => w ≠ "" && pyInStr w c.content)
  || (!cfg.allowedPostIds.isEmpty && !cfg.allowedPostIds.contains c.postId)
  || cfg.blockedNames.contains c.visitorName
  || (0 < cfg.maxReplies && cfg.maxReplies ≤ (lookupD counts c.id).getD 0)

/-- `_mark_processed(comment_id)`: stamp the cache and bump the count. -/
def markProcessed (cache counts : List (String × Int)) (id : String)
    (t : Int) : List (String × Int) × List (String × Int) :=
  (dictSet cache id t, dictSet counts id ((lookupD counts id).getD 0 + 1))

/-- What the `for comment in comments` loop of `_check_comments` leaves
behind: the two dicts, the running `max_created_ts`, and the ids of the
comments for which a reply was generated (hence possibly submitted). -/
structure CycleOut where
  cache : List (String × Int)
  counts : List (String × Int)
  maxTs : Int
  log : List String
  deriving DecidableEq, Repr

/-- The `for comment in comments` loop of `_check_comments` (lines 78–103):
track `max_created_ts`, skip per `_should_skip`, mark without replying when
replying is disabled or review mode is on, otherwise generate a reply
(logged), drop the comment on an empty reply or a failed submit, and mark
it processed on a successful submit. -/
def processEvents (cfg : MonCfg) :
    List CEvent → List (String × Int) → List (String × Int) → Int → CycleOut
  | [], cache, counts, maxTs =>
    { cache := cache, counts := counts, maxTs := maxTs, log := [] }
  | e :: rest, cache, counts, maxTs =>
    let createdTs := e.c.createdAt.getD e.nowFallback
    let maxTs' := max maxTs createdTs
    if shouldSkip cfg cache counts e.c then
      processEvents cfg rest cache counts maxTs'
    else if !cfg.enableReply then
      let m := markProcessed cache counts e.c.id e.markTime
      processEvents cfg rest m.1 m.2 maxTs'
    else if cfg.enableReview then
      let m := markProcessed cache counts e.c.id e.markTime
      processEvents cfg rest m.1 m.2 maxTs'
    else
      if e.replyText = "" then
        let r := processEvents cfg rest cache counts maxTs'
        { r with log := e.c.id :: r.log }
      else if e.submitOk then
        let m := markProcessed cache counts e.c.id e.markTime
        let r := processEvents cfg rest m.1 m.2 maxTs'
        { r with log := e.c.id :: r.log }
      else
        let r := processEvents cfg rest cache counts maxTs'
        { r with log := e.c.id :: r.log }

/-- The order `sorted(self._processed_cache.items(), key=lambda x: x[1])`
sorts by: the stamped time. -/
def byStamp (p q : String × Int) : Prop :=
  p.2 ≤ q.2

instance : DecidableRel byStamp := fun p q => inferInstanceAs (Decidable (p.2 ≤ q.2))

instance : IsTotal (String × Int) byStamp := ⟨fun p q => le_total p.2 q.2⟩

instance : IsTrans (String × Int) byStamp := ⟨fun _ _ _ h h' => le_trans h h'⟩

/-- `d.pop(key, None)` on a unique-key dict: drop the key's entry. -/
def dictPop (d : List (String × Int)) (k : String) : List (String × Int) :=
  d.filter fun p => p.1 ≠ k

/-- Pop each key in turn (`for key in ...: d.pop(key, None)`). -/
def dictPops (d : List (String × Int)) (ks : List String) : List (String × Int) :=
  ks.foldl dictPop d

/-- `_cleanup_cache` (lines 246–260): drop every entry older than the TTL
(`now - v > ttl`) from both dicts, then, if the cache still exceeds
`cache_size`, evict the `len - cache_size` entries with the smallest stamps
(Python's stable `sorted` modelled by the likewise stable insertion sort)
from both dicts. -/
def cleanupCache (cache counts : List (String × Int)) (ttl cacheSize now : Int) :
    List (String × Int) × List (String × Int) :=
  let expired := (cache.filter fun p => ttl < now - p.2).map Prod.fst
  let cache1 := dictPops cache expired
  let counts1 := dictPops counts expired
  if cacheSize < (cache1.length : Int) then
    let sortedItems := List.insertionSort byStamp cache1
    let excess := ((cache1.length : Int) - cacheSize).toNat
    let evicted := (sortedItems.take excess).map Prod.fst
    (dictPops cache1 evicted, dictPops counts1 evicted)
  else (cache1, counts1)

/-- One full `_check_comments` call (lines 66–106): nothing happens when the
plugin or the monitor is disabled or the fetch returns no comments;
otherwise run the loop from the current state and `since = _last_since`,
store the new watermark, and clean the cache at wall-clock time
`cleanupNow`.  Returns the new state and the ids for which a reply was
generated. -/
def checkComments (cfg : MonCfg) (st : MonState) (events : List CEvent)
    (cleanupNow : Int) : MonState × List String :=
  if !cfg.pluginEnable then (st, [])
  else if !cfg.monitorEnable then (st, [])
  else if events.isEmpty then (st, [])
  else
    let r := processEvents cfg events st.cache st.counts st.lastSince
    let cleaned := cleanupCache r.cache r.counts cfg.ttl cfg.cacheSize cleanupNow
    ({ lastSince := r.maxTs, cache := cleaned.1, counts := cleaned.2 }, r.log)

/-! ## Helper lemmas -/

theorem foldl_max_spec (xs : List Int) : ∀ a : Int,
    (xs.foldl max a = a ∨ xs.foldl max a ∈ xs) ∧
    a ≤ xs.foldl max a ∧ ∀ x ∈ xs, x ≤ xs.foldl max a := by
  induction xs with
  | nil => intro a; simp
  | cons x xs ih =>
    intro a
    simp only [List.foldl_cons]
    obtain ⟨h1, h2, h3⟩ := ih (max a x)
    refine ⟨?_, le_trans (le_max_left a x) h2, ?_⟩
    · rcases h1 with h | h
      · rcases max_choice a x with hc | hc
        · exact Or.inl (h.trans hc)
        · exact Or.inr (by rw [h, hc]; exact List.mem_cons_self x xs)
      · exact Or.inr (List.mem_cons_of_mem _ h)
    · intro y hy
      rcases List.mem_cons.mp hy with rfl | hy
      · exact le_trans (le_max_right a y) h2
      · exact h3 y hy

theorem pyMaxD_spec (l : List Int) (d : Int) (h : l ≠ []) :
    pyMaxD l d ∈ l ∧ ∀ x ∈ l, x ≤ pyMaxD l d := by
  match l with
  | [] => exact absurd rfl h
  | x :: xs =>
    obtain ⟨h1, h2, h3⟩ := foldl_max_spec xs x
    refine ⟨?_, ?_⟩
    · rcases h1 with h | h
      · simp [pyMaxD, h]
      · exact List.mem_cons_of_mem _ h
    · intro y hy
      rcases List.mem_cons.mp hy with rfl | hy
      · exact h2
      · exact h3 y hy

theorem lookupD_dictSet_self (d : List (String × α)) (k : String) (v : α) :
    lookupD (dictSet d k v) k = some v := by
  induction d with
  | nil => simp [dictSet, lookupD, List.find?]
  | cons p rest ih =>
    by_cases h : p.1 = k
    · simp [dictSet, h, lookupD, List.find?]
    · simp only [dictSet, if_neg h]
      simpa [lookupD, List.find?, h] using ih

theorem lookupD_dictSet_ne (d : List (String × α)) {k k' : String} (v : α)
    (h : k ≠ k') : lookupD (dictSet d k' v) k = lookupD d k := by
  induction d with
  | nil => simp [dictSet, lookupD, List.find?, Ne.symm h]
  | cons p rest ih =>
    by_cases hp : p.1 = k'
    · simp [dictSet, hp, lookupD, List.find?, Ne.symm h, hp ▸ Ne.symm h]
    · simp only [dictSet, if_neg hp]
      by_cases hk : p.1 = k
      · simp [lookupD, List.find?, hk]
      · simpa [lookupD, List.find?, hk] using ih

/-! ## C1 / C9 — Posts Store fallback publish -/

/-- C1: whenever a publish falls back to the local Posts Store (chat-command
or scheduler path), the id of the newly appended record is `1` when the
posts file is empty or absent, and otherwise — whenever every existing
record carries a readable integer id — one plus the maximum id among the
records already in the file. -/
theorem appendLocalPost_id_spec (posts : List Post) (title content createdAt : String) :
    (∃ r : Post, (appendLocalPost posts title content createdAt).1.getLast? = some r ∧
      r.id = some (appendLocalPost posts title content createdAt).2) ∧
    (posts = [] → (appendLocalPost posts title content createdAt).2 = 1) ∧
    (posts ≠ [] → (∀ p ∈ posts, p.id ≠ none) →
      ∃ m : Int, some m ∈ posts.map Post.id ∧
        (∀ p ∈ posts, ∀ v : Int, p.id = some v → v ≤ m) ∧
        (appendLocalPost posts title content createdAt).2 = m + 1) := by
  refine ⟨⟨Post.mk (some (appendLocalPost posts title content createdAt).2)
      title (pySummary content) content createdAt, ?_, rfl⟩, ?_, ?_⟩
  · simp [appendLocalPost]
  · rintro rfl
    rfl
  · intro hne hall
    have hids : posts.map (fun p => safeInt p.id) ≠ [] := by
      simpa using hne
    obtain ⟨hmem, hub⟩ := pyMaxD_spec (posts.map fun p => safeInt p.id) 0 hids
    refine ⟨pyMaxD (posts.map fun p => safeInt p.id) 0, ?_, ?_, ?_⟩
    · obtain ⟨p, hp, hpv⟩ := List.mem_map.mp hmem
      obtain ⟨v, hv⟩ := Option.ne_none_iff_exists'.mp (hall p hp)
      have hsv : safeInt p.id = v := by simp [safeInt, hv]
      rw [← hpv, hsv, ← hv]
      exact List.mem_map_of_mem Post.id hp
    · intro p hp v hv
      have hsv : safeInt p.id = v := by simp [safeInt, hv]
      simpa [hsv] using hub (safeInt p.id) (List.mem_map_of_mem _ hp)
    · rfl

/-- C9: every fallback (local) publish mutates the posts list only by
append: the result is exactly the old list followed by one new record, so
all pre-existing records are preserved field-for-field and in order. -/
theorem appendLocalPost_append_only (posts : List Post) (title content createdAt : String) :
    (∃ p : Post, (appendLocalPost posts title content createdAt).1 = posts ++ [p]) ∧
    (appendLocalPost posts title content createdAt).1.take posts.length = posts ∧
    (appendLocalPost posts title content createdAt).1.length = posts.length + 1 := by
  refine ⟨⟨_, rfl⟩, ?_, ?_⟩
  · simp [appendLocalPost, List.take_left]
  · simp [appendLocalPost]

/-! ## C7 — remote publish success condition -/

/-- C7: `_publish_remote` returns a post id exactly when the URL is
configured, the single HTTP exchange returns a decodable response with a
success status (`< 400`), the application-level `code` is `0`, and the body
carries a non-null `data.id`; every other outcome (transport exception,
HTTP error status, undecodable body, non-zero or missing code, missing id)
yields no id.  The function consumes exactly one `HttpOutcome`: no retry
happens at this layer. -/
theorem publishRemote_spec (apiUrl : String) (outcome : HttpOutcome) (i : Int) :
    publishRemote apiUrl outcome = some i ↔
      apiUrl ≠ "" ∧ ∃ status : Nat, ∃ body : ApiBody,
        outcome = .resp status (some body) ∧ status < 400 ∧
        body.code = some 0 ∧
        ∃ record : ApiPostData, body.data = some record ∧ record.id = some i := by
  cases outcome with
  | exn =>
    by_cases hu : apiUrl = "" <;> simp [publishRemote, hu]
  | resp status body =>
    by_cases hu : apiUrl = ""
    · simp [publishRemote, hu]
    · cases body with
      | none => simp [publishRemote, hu]
      | some b =>
        simp only [publishRemote, if_neg hu, ne_eq, hu, not_false_eq_true, true_and]
        by_cases hs : 400 ≤ status
        · rw [if_pos hs]
          constructor
          · intro h
            exact absurd h (by simp)
          · rintro ⟨s, b', hb', hlt, -⟩
            injection hb' with h1 h2
            omega
        · rw [if_neg hs]
          by_cases hc : b.code = some 0
          · rw [if_neg (not_not_intro hc)]
            cases hd : b.data with
            | none =>
              constructor
              · intro h
                exact absurd h (by simp)
              · rintro ⟨s, b', hb', hlt, hc', r, hr, hid⟩
                injection hb' with h1 h2
                injection h2 with h2
                subst h2
                rw [hd] at hr
                exact absurd hr (by simp)
            | some r =>
              constructor
              · intro h
                exact ⟨status, b, rfl, by omega, hc, r, hd, h⟩
              · rintro ⟨s, b', hb', hlt, hc', r', hr', hid⟩
                injection hb' with h1 h2
                injection h2 with h2
                subst h2
                rw [hd] at hr'
                injection hr' with hr'
                subst hr'
                exact hid
          · rw [if_pos hc]
            constructor
            · intro h
              exact absurd h (by simp)
            · rintro ⟨s, b', hb', hlt, hc', -⟩
              injection hb' with h1 h2
              injection h2 with h2
              subst h2
              exact absurd hc' hc

/-! ## C8 / C10 — `_parse_llm_output` -/

theorem foldl_parseStep_nil (lines : List String)
    (h : ∀ l ∈ lines, pyStartsWith l "标题:" = false ∧ pyStartsWith l "正文:" = false) :
    lines.foldl parseStep ("", "") = ("", "") := by
  induction lines with
  | nil => rfl
  | cons l rest ih =>
    obtain ⟨h1, h2⟩ := h l (List.mem_cons_self l rest)
    have hstep : parseStep ("", "") l = ("", "") := by
      simp [parseStep, h1, h2]
    rw [List.foldl_cons, hstep]
    exact ih fun x hx => h x (List.mem_cons_of_mem l hx)

theorem foldl_parseStep_content (lines : List String) : ∀ acc : String × String,
    acc.2 ≠ "" → (∀ l ∈ lines, pyStartsWith l "正文:" = false) →
    (lines.foldl parseStep acc).2 = acc.2 := by
  induction lines with
  | nil =>
    intro acc _ _
    rfl
  | cons l rest ih =>
    intro acc hacc h
    have h2 : pyStartsWith l "正文:" = false := h l (List.mem_cons_self l rest)
    have hrest : ∀ x ∈ rest, pyStartsWith x "正文:" = false :=
      fun x hx => h x (List.mem_cons_of_mem l hx)
    rw [List.foldl_cons]
    by_cases ht : pyStartsWith l "标题:" = true
    · have hstep : parseStep acc l = (pyStrip (pyRemoveFirst l "标题:"), acc.2) := by
        simp [parseStep, ht]
      rw [hstep]
      exact ih _ hacc hrest
    · have hstep : parseStep acc l = acc := by
        simp only [parseStep, Bool.not_eq_true] at ht ⊢
        rw [ht, h2]
        simp [hacc]
      rw [hstep]
      exact ih _ hacc hrest

/-- C8: parsing the LLM output `"标题: 测试\n正文: 内容"` yields
`("测试", "内容")` for every fallback title, and parsing any non-empty text
none of whose lines starts with `标题:` or `正文:` yields the
caller-supplied fallback title together with the whole input text
stripped. -/
theorem parseLlmOutput_spec :
    (∀ fb : String, parseLlmOutput "标题: 测试\n正文: 内容" fb = ("测试", "内容")) ∧
    (∀ text fb : String, text ≠ "" →
      (∀ l ∈ pySplitlines text,
        pyStartsWith l "标题:" = false ∧ pyStartsWith l "正文:" = false) →
      parseLlmOutput text fb = (fb, pyStrip text)) := by
  constructor
  · intro fb
    rfl
  · intro text fb htext hlines
    simp only [parseLlmOutput, if_neg htext]
    rw [foldl_parseStep_nil _ hlines]
    simp

/-- C10 counterexample: the text `"正文:\nhello"` contains a line prefixed
`正文:` (its last — and only — such line is `"正文:"`, whose stripped
remainder is `""`), yet the parsed body is not that remainder: the loop
leaves the content empty, the following line is not absorbed (no title was
seen), and the final fallback returns the whole stripped text instead. -/
theorem parseLlmOutput_body_cex :
    pySplitlines "正文:\nhello" = ["正文:", "hello"] ∧
    pyStartsWith "正文:" "正文:" = true ∧
    pyStrip (pyRemoveFirst "正文:" "正文:") = "" ∧
    (parseLlmOutput "正文:\nhello" "T").2 = "正文:\nhello" ∧
    (parseLlmOutput "正文:\nhello" "T").2 ≠ pyStrip (pyRemoveFirst "正文:" "正文:") := by
  refine ⟨rfl, rfl, rfl, rfl, ?_⟩
  decide

/-- C10 (amended): for every LLM output text containing a line prefixed
`正文:`, *provided the last such line has a non-empty stripped remainder*,
the parsed body is exactly that remainder: lines following it that do not
themselves start with `标题:` or `正文:` are discarded, so a body spanning
several lines after the marker is truncated to the marker line's own
content.  (When the last `正文:` line strips to nothing the loop may
instead absorb a later plain line, or fall back to the whole stripped
text, as the counterexample shows.) -/
theorem parseLlmOutput_body_amended (text fb : String) (l1 l2 : List String) (b : String)
    (hsplit : pySplitlines text = l1 ++ b :: l2)
    (hb1 : pyStartsWith b "标题:" = false)
    (hb2 : pyStartsWith b "正文:" = true)
    (hrem : pyStrip (pyRemoveFirst b "正文:") ≠ "")
    (hl2 : ∀ l ∈ l2, pyStartsWith l "正文:" = false) :
    (parseLlmOutput text fb).2 = pyStrip (pyRemoveFirst b "正文:") := by
  have htext : text ≠ "" := by
    intro h
    rw [h] at hsplit
    exact List.cons_ne_nil b l2 (List.append_eq_nil.mp hsplit.symm).2
  simp only [parseLlmOutput, if_neg htext]
  rw [hsplit, List.foldl_append, List.foldl_cons]
  have hstep : parseStep ((l1.foldl parseStep ("", ""))) b =
      ((l1.foldl parseStep ("", "")).1, pyStrip (pyRemoveFirst b "正文:")) := by
    simp [parseStep, hb1, hb2]
  rw [hstep, foldl_parseStep_content l2 _ hrem hl2]
  simp [hrem]

/-- Witness for `parseLlmOutput_body_amended`: with a title line, a
`正文: 内容` line and a trailing `extra` line, the parsed body is exactly
`内容` — the trailing line is discarded. -/
theorem parseLlmOutput_body_amended_witness :
    (parseLlmOutput "标题: 题\n正文: 内容\nextra" "F").2 =
      pyStrip (pyRemoveFirst "正文: 内容" "正文:") :=
  parseLlmOutput_body_amended "标题: 题\n正文: 内容\nextra" "F" ["标题: 题"] ["extra"]
    "正文: 内容" (by decide) (by decide) (by decide) (by decide) (by decide)

/-! ## C2 — scheduler at-most-once-per-day firing -/

theorem schedulePoll_fired_mem (dateStr timeStr : String) (ex : STask → Bool)
    (tasks : List STask) : ∀ (status : List (String × String)) (t : STask),
    t ∈ (schedulePoll dateStr timeStr ex tasks status).2 → t ∈ tasks := by
  induction tasks with
  | nil =>
    intro status t h
    simp [schedulePoll] at h
  | cons x ts ih =>
    intro status t h
    by_cases h1 : x.time = ""
    · simp only [schedulePoll, h1, if_true, if_pos] at h
      exact List.mem_cons_of_mem x (ih status t h)
    · by_cases h2 : lookupD status (generateTaskId x) = some dateStr
      · simp only [schedulePoll, h1, h2, if_neg, if_true, if_false, ite_true, ite_false] at h
        exact List.mem_cons_of_mem x (ih _ t h)
      · by_cases h3 : pyStrGe timeStr x.time = true
        · by_cases h4 : ex x = true
          · simp only [schedulePoll, h1, h2, h3, h4, ite_true, ite_false, if_neg,
              if_true, if_false] at h
            rcases List.mem_cons.mp h with rfl | h
            · exact List.mem_cons_self t ts
            · exact List.mem_cons_of_mem x (ih _ t h)
          · simp only [schedulePoll, h1, h2, h3, h4, ite_true, ite_false] at h
            rcases List.mem_cons.mp h with rfl | h
            · exact List.mem_cons_self t ts
            · exact List.mem_cons_of_mem x (ih _ t h)
        · simp only [schedulePoll, h1, h2, h3, ite_true, ite_false] at h
          exact List.mem_cons_of_mem x (ih _ t h)

theorem schedulePoll_lookup_frame (dateStr timeStr : String) (ex : STask → Bool)
    (tasks : List STask) : ∀ (status : List (String × String)) (k : String),
    (∀ t ∈ tasks, generateTaskId t ≠ k) →
    lookupD (schedulePoll dateStr timeStr ex tasks status).1 k = lookupD status k := by
  induction tasks with
  | nil =>
    intro status k _
    rfl
  | cons x ts ih =>
    intro status k hk
    have hxk : generateTaskId x ≠ k := hk x (List.mem_cons_self x ts)
    have hts : ∀ t ∈ ts, generateTaskId t ≠ k :=
      fun t ht => hk t (List.mem_cons_of_mem x ht)
    by_cases h1 : x.time = ""
    · simp only [schedulePoll, h1, ite_true, if_pos]
      exact ih status k hts
    · by_cases h2 : lookupD status (generateTaskId x) = some dateStr
      · simp only [schedulePoll, h1, h2, ite_true, ite_false, if_neg]
        exact ih status k hts
      · by_cases h3 : pyStrGe timeStr x.time = true
        · by_cases h4 : ex x = true
          · simp only [schedulePoll, h1, h2, h3, h4, ite_true, ite_false]
            rw [ih _ k hts]
            exact lookupD_dictSet_ne status dateStr (Ne.symm hxk)
          · simp only [schedulePoll, h1, h2, h3, h4, ite_true, ite_false]
            exact ih status k hts
        · simp only [schedulePoll, h1, h2, h3, ite_true, ite_false]
          exact ih status k hts

theorem schedulePoll_spec (dateStr timeStr : String) (ex : STask → Bool) (t : STask)
    (htime : t.time ≠ "") (tasks : List STask) :
    ∀ status : List (String × String), t ∈ tasks →
      tasks.Pairwise (fun a b => generateTaskId a ≠ generateTaskId b) →
      ((t ∈ (schedulePoll dateStr timeStr ex tasks status).2 ↔
        (lookupD status (generateTaskId t) ≠ some dateStr ∧ pyStrGe timeStr t.time = true)) ∧
       (ex t = true → lookupD status (generateTaskId t) ≠ some dateStr →
        pyStrGe timeStr t.time = true →
        lookupD (schedulePoll dateStr timeStr ex tasks status).1 (generateTaskId t) =
          some dateStr)) := by
  induction tasks with
  | nil =>
    intro status hmem
    exact absurd hmem (List.not_mem_nil t)
  | cons x ts ih =>
    intro status hmem hpw
    have hhead : ∀ b ∈ ts, generateTaskId x ≠ generateTaskId b :=
      (List.pairwise_cons.mp hpw).1
    have hpw' : ts.Pairwise (fun a b => generateTaskId a ≠ generateTaskId b) :=
      (List.pairwise_cons.mp hpw).2
    rcases List.mem_cons.mp hmem with rfl | hmemts
    · -- the target task is the head of the list
      have htnotts : t ∉ ts := fun hin => hhead t hin rfl
      by_cases h2 : lookupD status (generateTaskId t) = some dateStr
      · simp only [schedulePoll]
        rw [if_neg htime, if_pos h2]
        refine ⟨iff_of_false ?_ ?_, ?_⟩
        · intro hf
          exact htnotts (schedulePoll_fired_mem dateStr timeStr ex ts status t hf)
        · rintro ⟨h2', -⟩
          exact h2' h2
        · intro _ hlook
          exact absurd h2 hlook
      · by_cases h3 : pyStrGe timeStr t.time = true
        · by_cases h4 : ex t = true
          · simp only [schedulePoll]
            rw [if_neg htime, if_neg h2, if_pos h3, if_pos h4]
            refine ⟨iff_of_true (List.mem_cons_self t _) ⟨h2, h3⟩, ?_⟩
            intro _ _ _
            rw [schedulePoll_lookup_frame dateStr timeStr ex ts _ _
              (fun u hu => (hhead u hu).symm)]
            exact lookupD_dictSet_self status (generateTaskId t) dateStr
          · simp only [schedulePoll]
            rw [if_neg htime, if_neg h2, if_pos h3, if_neg h4]
            refine ⟨iff_of_true (List.mem_cons_self t _) ⟨h2, h3⟩, ?_⟩
            intro hex
            exact absurd hex h4
        · simp only [schedulePoll]
          rw [if_neg htime, if_neg h2, if_neg h3]
          refine ⟨iff_of_false ?_ ?_, ?_⟩
          · intro hf
            exact htnotts (schedulePoll_fired_mem dateStr timeStr ex ts status t hf)
          · rintro ⟨-, h3'⟩
            exact h3 h3'
          · intro _ _ h3'
            exact absurd h3' h3
    · -- the target task sits in the tail
      have hxid : generateTaskId x ≠ generateTaskId t := hhead t hmemts
      have hxt : x ≠ t := fun h => hxid (by rw [h])
      by_cases h1 : x.time = ""
      · simp only [schedulePoll]
        rw [if_pos h1]
        exact ih status hmemts hpw'
      · by_cases h2 : lookupD status (generateTaskId x) = some dateStr
        · simp only [schedulePoll]
          rw [if_neg h1, if_pos h2]
          exact ih status hmemts hpw'
        · by_cases h3 : pyStrGe timeStr x.time = true
          · by_cases h4 : ex x = true
            · simp only [schedulePoll]
              rw [if_neg h1, if_neg h2, if_pos h3, if_pos h4]
              have hlk : lookupD (dictSet status (generateTaskId x) dateStr)
                  (generateTaskId t) = lookupD status (generateTaskId t) :=
                lookupD_dictSet_ne status dateStr (Ne.symm hxid)
              obtain ⟨hiff, hrec⟩ := ih (dictSet status (generateTaskId x) dateStr) hmemts hpw'
              refine ⟨?_, ?_⟩
              · rw [← hlk]
                constructor
                · intro hf
                  rcases List.mem_cons.mp hf with rfl | hf
                  · exact absurd rfl hxt
                  · exact hiff.mp hf
                · intro hrhs
                  exact List.mem_cons_of_mem x (hiff.mpr hrhs)
              · intro hex hlook h3'
                exact hrec hex (by rwa [hlk]) h3'
            · simp only [schedulePoll]
              rw [if_neg h1, if_neg h2, if_pos h3, if_neg h4]
              obtain ⟨hiff, hrec⟩ := ih status hmemts hpw'
              refine ⟨?_, hrec⟩
              constructor
              · intro hf
                rcases List.mem_cons.mp hf with rfl | hf
                · exact absurd rfl hxt
                · exact hiff.mp hf
              · intro hrhs
                exact List.mem_cons_of_mem x (hiff.mpr hrhs)
          · simp only [schedulePoll]
            rw [if_neg h1, if_neg h2, if_neg h3]
            exact ih status hmemts hpw'

/-- C2: for a configured task (non-blank time, distinct task ids), one poll
fires the task exactly when the status map does not already record the
current local date under the task's id and the current time-of-day string
is lexicographically `>=` the task's time string; when the task fires and
its execution succeeds, today's date is recorded, so a second poll on the
same local date does not fire it again, while a poll on a different (next)
day at or after the task's time fires it again. -/
theorem schedulePoll_at_most_once_daily
    (dateD timeT dateD2 timeT2 : String) (ex ex2 : STask → Bool)
    (tasks : List STask) (status : List (String × String)) (t : STask)
    (hmem : t ∈ tasks) (htime : t.time ≠ "")
    (hids : tasks.Pairwise fun a b => generateTaskId a ≠ generateTaskId b) :
    (t ∈ (schedulePoll dateD timeT ex tasks status).2 ↔
      (lookupD status (generateTaskId t) ≠ some dateD ∧ pyStrGe timeT t.time = true)) ∧
    (ex t = true → t ∈ (schedulePoll dateD timeT ex tasks status).2 →
      (t ∉ (schedulePoll dateD timeT2 ex2 tasks
        (schedulePoll dateD timeT ex tasks status).1).2) ∧
      (dateD2 ≠ dateD → pyStrGe timeT2 t.time = true →
        t ∈ (schedulePoll dateD2 timeT2 ex2 tasks
          (schedulePoll dateD timeT ex tasks status).1).2)) := by
  obtain ⟨hiff, hrec⟩ := schedulePoll_spec dateD timeT ex t htime tasks status hmem hids
  refine ⟨hiff, ?_⟩
  intro hex hfired
  obtain ⟨hlook, hge⟩ := hiff.mp hfired
  have hrecorded : lookupD (schedulePoll dateD timeT ex tasks status).1
      (generateTaskId t) = some dateD := hrec hex hlook hge
  constructor
  · intro hfired2
    obtain ⟨hlook2, -⟩ :=
      (schedulePoll_spec dateD timeT2 ex2 t htime tasks
        (schedulePoll dateD timeT ex tasks status).1 hmem hids).1.mp hfired2
    exact hlook2 hrecorded
  · intro hd2 hge2
    refine (schedulePoll_spec dateD2 timeT2 ex2 t htime tasks
      (schedulePoll dateD timeT ex tasks status).1 hmem hids).1.mpr ⟨?_, hge2⟩
    rw [hrecorded]
    intro h
    exact hd2 (Option.some_injective String h).symm

/-- Witness for `schedulePoll_at_most_once_daily`, the spec's scenario: task
`{time := "08:00", type := "topic", topic := "早安"}` fires at 08:05 on day
`2024-01-01`, a second poll at 08:10 the same day does not re-fire it, and a
poll at 08:00 on `2024-01-02` fires it again. -/
theorem schedulePoll_at_most_once_daily_witness :
    ((⟨"topic", "08:00", "早安"⟩ : STask) ∈
      (schedulePoll "2024-01-01" "08:05" (fun _ => true)
        [⟨"topic", "08:00", "早安"⟩] []).2) ∧
    ((⟨"topic", "08:00", "早安"⟩ : STask) ∉
      (schedulePoll "2024-01-01" "08:10" (fun _ => true) [⟨"topic", "08:00", "早安"⟩]
        (schedulePoll "2024-01-01" "08:05" (fun _ => true)
          [⟨"topic", "08:00", "早安"⟩] []).1).2) ∧
    ((⟨"topic", "08:00", "早安"⟩ : STask) ∈
      (schedulePoll "2024-01-02" "08:00" (fun _ => true) [⟨"topic", "08:00", "早安"⟩]
        (schedulePoll "2024-01-01" "08:05" (fun _ => true)
          [⟨"topic", "08:00", "早安"⟩] []).1).2) := by
  have h1 := schedulePoll_at_most_once_daily "2024-01-01" "08:05" "2024-01-01" "08:10"
    (fun _ => true) (fun _ => true) [⟨"topic", "08:00", "早安"⟩] []
    ⟨"topic", "08:00", "早安"⟩ (List.mem_cons_self _ _) (by decide) (by decide)
  have h2 := schedulePoll_at_most_once_daily "2024-01-01" "08:05" "2024-01-02" "08:00"
    (fun _ => true) (fun _ => true) [⟨"topic", "08:00", "早安"⟩] []
    ⟨"topic", "08:00", "早安"⟩ (List.mem_cons_self _ _) (by decide) (by decide)
  have hfired : (⟨"topic", "08:00", "早安"⟩ : STask) ∈
      (schedulePoll "2024-01-01" "08:05" (fun _ => true)
        [⟨"topic", "08:00", "早安"⟩] []).2 :=
    h1.1.mpr ⟨by decide, by decide⟩
  exact ⟨hfired, (h1.2 rfl hfired).1, (h2.2 rfl hfired).2 (by decide) (by decide)⟩

/-! ## C6 — queue items: removal vs. retention -/

/-- C6 counterexample: a due queue item with blank title and content whose
automatic generation fails is removed from the queue (the retained list is
empty) although nothing was published (the publish counter stays `0`) —
so "removed only if published" does not hold as stated. -/
theorem processQueue_drop_cex :
    processQueueTask [(⟨"", "", none⟩, ⟨none, true⟩)] 1 0 = ([], 0) := by
  rfl

/-- C6 (amended): in a queue-type scheduler run, the persisted queue is a
sublist of the original (items are only ever removed, never reordered or
edited); once the per-run cap is exhausted everything is retained verbatim;
an item that is not yet due is retained; an item whose publish attempt
fails is retained (unless it was a blank item whose generation failed); and
an item is removed only if its publish call succeeded or it was due but
blank (title or content stripping to empty) and its automatic generation
failed, in which case it is dropped without being published. -/
theorem processQueue_retention (now : Int) (maxPosts : Nat)
    (entries : List (QItem × QOracle)) : ∀ count : Nat,
    ((processQueue now maxPosts entries count).1.Sublist (entries.map Prod.fst)) ∧
    (maxPosts ≤ count → (processQueue now maxPosts entries count).1 = entries.map Prod.fst) ∧
    (∀ e ∈ entries, isItemDue e.1 now = false →
      e.1 ∈ (processQueue now maxPosts entries count).1) ∧
    (∀ e ∈ entries, e.2.pubOk = false →
      ((pyStrip e.1.title ≠ "" ∧ pyStrip e.1.content ≠ "") ∨ e.2.genResult ≠ none) →
      e.1 ∈ (processQueue now maxPosts entries count).1) ∧
    (∀ e ∈ entries, e.1 ∉ (processQueue now maxPosts entries count).1 →
      isItemDue e.1 now = true ∧
      (e.2.pubOk = true ∨ ((pyStrip e.1.title = "" ∨ pyStrip e.1.content = "") ∧
        e.2.genResult = none))) := by
  induction entries with
  | nil =>
    intro count
    refine ⟨List.Sublist.refl _, fun _ => rfl, ?_, ?_, ?_⟩ <;> simp
  | cons p rest ih =>
    obtain ⟨item, orc⟩ := p
    intro count
    by_cases hcap : maxPosts ≤ count
    · have hres : processQueue now maxPosts ((item, orc) :: rest) count =
          (item :: (processQueue now maxPosts rest count).1,
           (processQueue now maxPosts rest count).2) := by
        simp only [processQueue]
        rw [if_pos hcap]
      obtain ⟨hS, hC, hD, hP, hR⟩ := ih count
      rw [hres, List.map_cons]
      refine ⟨hS.cons₂ item, fun _ => by rw [hC hcap], ?_, ?_, ?_⟩
      · intro e hmem0 hdue
        rcases List.mem_cons.mp hmem0 with rfl | he
        · exact List.mem_cons_self _ _
        · exact List.mem_cons_of_mem _ (hD e he hdue)
      · intro e hmem0 hpub hside
        rcases List.mem_cons.mp hmem0 with rfl | he
        · exact List.mem_cons_self _ _
        · exact List.mem_cons_of_mem _ (hP e he hpub hside)
      · intro e hmem0 hnot
        rcases List.mem_cons.mp hmem0 with rfl | he
        · exact absurd (List.mem_cons_self _ _) hnot
        · exact hR e he fun hin => hnot (List.mem_cons_of_mem _ hin)
    · cases hdue : isItemDue item now with
      | false =>
        have hres : processQueue now maxPosts ((item, orc) :: rest) count =
            (item :: (processQueue now maxPosts rest count).1,
             (processQueue now maxPosts rest count).2) := by
          simp only [processQueue]
          rw [if_neg hcap, if_pos (by simp [hdue])]
        obtain ⟨hS, hC, hD, hP, hR⟩ := ih count
        rw [hres, List.map_cons]
        refine ⟨hS.cons₂ item, fun h => absurd h hcap, ?_, ?_, ?_⟩
        · intro e hmem0 hdue'
          rcases List.mem_cons.mp hmem0 with rfl | he
          · exact List.mem_cons_self _ _
          · exact List.mem_cons_of_mem _ (hD e he hdue')
        · intro e hmem0 hpub hside
          rcases List.mem_cons.mp hmem0 with rfl | he
          · exact List.mem_cons_self _ _
          · exact List.mem_cons_of_mem _ (hP e he hpub hside)
        · intro e hmem0 hnot
          rcases List.mem_cons.mp hmem0 with rfl | he
          · exact absurd (List.mem_cons_self _ _) hnot
          · exact hR e he fun hin => hnot (List.mem_cons_of_mem _ hin)
      | true =>
        by_cases hblank : pyStrip item.title = "" ∨ pyStrip item.content = ""
        · cases hgen : orc.genResult with
          | none =>
            have hres : processQueue now maxPosts ((item, orc) :: rest) count =
                processQueue now maxPosts rest count := by
              simp only [processQueue]
              rw [if_neg hcap, if_neg (by simp [hdue]), if_pos (by simpa using hblank), hgen]
            obtain ⟨hS, hC, hD, hP, hR⟩ := ih count
            rw [hres, List.map_cons]
            refine ⟨hS.cons _, fun h => absurd h hcap, ?_, ?_, ?_⟩
            · intro e hmem0 hdue'
              rcases List.mem_cons.mp hmem0 with rfl | he
              · rw [hdue] at hdue'
                exact absurd hdue' (by simp)
              · exact hD e he hdue'
            · intro e hmem0 hpub hside
              rcases List.mem_cons.mp hmem0 with rfl | he
              · rcases hside with ⟨h1, h2⟩ | hg
                · rcases hblank with hb | hb
                  · exact absurd hb h1
                  · exact absurd hb h2
                · exact absurd hgen hg
              · exact hP e he hpub hside
            · intro e hmem0 hnot
              rcases List.mem_cons.mp hmem0 with rfl | he
              · exact ⟨hdue, Or.inr ⟨hblank, hgen⟩⟩
              · exact hR e he hnot
          | some g =>
            cases hpub : orc.pubOk with
            | true =>
              have hres : processQueue now maxPosts ((item, orc) :: rest) count =
                  processQueue now maxPosts rest (count + 1) := by
                simp only [processQueue]
                rw [if_neg hcap, if_neg (by simp [hdue]), if_pos (by simpa using hblank),
                  hgen, if_pos hpub]
              obtain ⟨hS, hC, hD, hP, hR⟩ := ih (count + 1)
              rw [hres, List.map_cons]
              refine ⟨hS.cons _, fun h => absurd h hcap, ?_, ?_, ?_⟩
              · intro e hmem0 hdue'
                rcases List.mem_cons.mp hmem0 with rfl | he
                · rw [hdue] at hdue'
                  exact absurd hdue' (by simp)
                · exact hD e he hdue'
              · intro e hmem0 hpub' hside
                rcases List.mem_cons.mp hmem0 with rfl | he
                · rw [hpub] at hpub'
                  exact absurd hpub' (by simp)
                · exact hP e he hpub' hside
              · intro e hmem0 hnot
                rcases List.mem_cons.mp hmem0 with rfl | he
                · exact ⟨hdue, Or.inl hpub⟩
                · exact hR e he hnot
            | false =>
              have hres : processQueue now maxPosts ((item, orc) :: rest) count =
                  (item :: (processQueue now maxPosts rest count).1,
                   (processQueue now maxPosts rest count).2) := by
                simp only [processQueue]
                rw [if_neg hcap, if_neg (by simp [hdue]), if_pos (by simpa using hblank),
                  hgen, if_neg (by simp [hpub])]
              obtain ⟨hS, hC, hD, hP, hR⟩ := ih count
              rw [hres, List.map_cons]
              refine ⟨hS.cons₂ item, fun h => absurd h hcap, ?_, ?_, ?_⟩
              · intro e hmem0 hdue'
                rcases List.mem_cons.mp hmem0 with rfl | he
                · exact List.mem_cons_self _ _
                · exact List.mem_cons_of_mem _ (hD e he hdue')
              · intro e hmem0 hpub' hside
                rcases List.mem_cons.mp hmem0 with rfl | he
                · exact List.mem_cons_self _ _
                · exact List.mem_cons_of_mem _ (hP e he hpub' hside)
              · intro e hmem0 hnot
                rcases List.mem_cons.mp hmem0 with rfl | he
                · exact absurd (List.mem_cons_self _ _) hnot
                · exact hR e he fun hin => hnot (List.mem_cons_of_mem _ hin)
        · cases hpub : orc.pubOk with
          | true =>
            have hres : processQueue now maxPosts ((item, orc) :: rest) count =
                processQueue now maxPosts rest (count + 1) := by
              simp only [processQueue]
              rw [if_neg hcap, if_neg (by simp [hdue]), if_neg (by simpa using hblank),
                if_pos hpub]
            obtain ⟨hS, hC, hD, hP, hR⟩ := ih (count + 1)
            rw [hres, List.map_cons]
            refine ⟨hS.cons _, fun h => absurd h hcap, ?_, ?_, ?_⟩
            · intro e hmem0 hdue'
              rcases List.mem_cons.mp hmem0 with rfl | he
              · rw [hdue] at hdue'
                exact absurd hdue' (by simp)
              · exact hD e he hdue'
            · intro e hmem0 hpub' hside
              rcases List.mem_cons.mp hmem0 with rfl | he
              · rw [hpub] at hpub'
                exact absurd hpub' (by simp)
              · exact hP e he hpub' hside
            · intro e hmem0 hnot
              rcases List.mem_cons.mp hmem0 with rfl | he
              · exact ⟨hdue, Or.inl hpub⟩
              · exact hR e he hnot
          | false =>
            have hres : processQueue now maxPosts ((item, orc) :: rest) count =
                (item :: (processQueue now maxPosts rest count).1,
                 (processQueue now maxPosts rest count).2) := by
              simp only [processQueue]
              rw [if_neg hcap, if_neg (by simp [hdue]), if_neg (by simpa using hblank),
                if_neg (by simp [hpub])]
            obtain ⟨hS, hC, hD, hP, hR⟩ := ih count
            rw [hres, List.map_cons]
            refine ⟨hS.cons₂ item, fun h => absurd h hcap, ?_, ?_, ?_⟩
            · intro e hmem0 hdue'
              rcases List.mem_cons.mp hmem0 with rfl | he
              · exact List.mem_cons_self _ _
              · exact List.mem_cons_of_mem _ (hD e he hdue')
            · intro e hmem0 hpub' hside
              rcases List.mem_cons.mp hmem0 with rfl | he
              · exact List.mem_cons_self _ _
              · exact List.mem_cons_of_mem _ (hP e he hpub' hside)
            · intro e hmem0 hnot
              rcases List.mem_cons.mp hmem0 with rfl | he
              · exact absurd (List.mem_cons_self _ _) hnot
              · exact hR e he fun hin => hnot (List.mem_cons_of_mem _ hin)

/-! ## C3 — watermark monotonicity -/

theorem maxTs_combine (maxTs : Int) (e : CEvent) (rest : List CEvent) (v : Int)
    (h1 : max maxTs (e.c.createdAt.getD e.nowFallback) ≤ v)
    (h2 : ∀ x ∈ rest, x.c.createdAt.getD x.nowFallback ≤ v)
    (h3 : v = max maxTs (e.c.createdAt.getD e.nowFallback) ∨
      ∃ x ∈ rest, v = x.c.createdAt.getD x.nowFallback) :
    maxTs ≤ v ∧
    (∀ x ∈ e :: rest, x.c.createdAt.getD x.nowFallback ≤ v) ∧
    (v = maxTs ∨ ∃ x ∈ e :: rest, v = x.c.createdAt.getD x.nowFallback) := by
  refine ⟨le_trans (le_max_left _ _) h1, ?_, ?_⟩
  · intro x hx
    rcases List.mem_cons.mp hx with rfl | hx
    · exact le_trans (le_max_right _ _) h1
    · exact h2 x hx
  · rcases h3 with h | ⟨x, hx, hv⟩
    · rcases max_choice maxTs (e.c.createdAt.getD e.nowFallback) with hc | hc
      · exact Or.inl (h.trans hc)
      · exact Or.inr ⟨e, List.mem_cons_self _ _, h.trans hc⟩
    · exact Or.inr ⟨x, List.mem_cons_of_mem _ hx, hv⟩

theorem processEvents_maxTs (cfg : MonCfg) (events : List CEvent) :
    ∀ (cache counts : List (String × Int)) (maxTs : Int),
      (maxTs ≤ (processEvents cfg events cache counts maxTs).maxTs) ∧
      (∀ x ∈ events, x.c.createdAt.getD x.nowFallback ≤
        (processEvents cfg events cache counts maxTs).maxTs) ∧
      ((processEvents cfg events cache counts maxTs).maxTs = maxTs ∨
       ∃ x ∈ events, (processEvents cfg events cache counts maxTs).maxTs =
         x.c.createdAt.getD x.nowFallback) := by
  induction events with
  | nil =>
    intro cache counts maxTs
    refine ⟨le_refl _, ?_, Or.inl rfl⟩
    simp [processEvents]
  | cons e rest ih =>
    intro cache counts maxTs
    by_cases hskip : shouldSkip cfg cache counts e.c = true
    · have hres : (processEvents cfg (e :: rest) cache counts maxTs).maxTs =
          (processEvents cfg rest cache counts
            (max maxTs (e.c.createdAt.getD e.nowFallback))).maxTs := by
        simp only [processEvents]
        rw [if_pos hskip]
      obtain ⟨h1, h2, h3⟩ := ih cache counts (max maxTs (e.c.createdAt.getD e.nowFallback))
      rw [hres]
      exact maxTs_combine maxTs e rest _ h1 h2 h3
    · cases hrep : cfg.enableReply with
      | false =>
        have hres : (processEvents cfg (e :: rest) cache counts maxTs).maxTs =
            (processEvents cfg rest
              (markProcessed cache counts e.c.id e.markTime).1
              (markProcessed cache counts e.c.id e.markTime).2
              (max maxTs (e.c.createdAt.getD e.nowFallback))).maxTs := by
          simp only [processEvents]
          rw [if_neg hskip, if_pos (by simp [hrep])]
        obtain ⟨h1, h2, h3⟩ := ih (markProcessed cache counts e.c.id e.markTime).1
          (markProcessed cache counts e.c.id e.markTime).2
          (max maxTs (e.c.createdAt.getD e.nowFallback))
        rw [hres]
        exact maxTs_combine maxTs e rest _ h1 h2 h3
      | true =>
        cases hrev : cfg.enableReview with
        | true =>
          have hres : (processEvents cfg (e :: rest) cache counts maxTs).maxTs =
              (processEvents cfg rest
                (markProcessed cache counts e.c.id e.markTime).1
                (markProcessed cache counts e.c.id e.markTime).2
                (max maxTs (e.c.createdAt.getD e.nowFallback))).maxTs := by
            simp only [processEvents]
            rw [if_neg hskip, if_neg (by simp [hrep]), if_pos hrev]
          obtain ⟨h1, h2, h3⟩ := ih (markProcessed cache counts e.c.id e.markTime).1
            (markProcessed cache counts e.c.id e.markTime).2
            (max maxTs (e.c.createdAt.getD e.nowFallback))
          rw [hres]
          exact maxTs_combine maxTs e rest _ h1 h2 h3
        | false =>
          by_cases hrt : e.replyText = ""
          · have hres : (processEvents cfg (e :: rest) cache counts maxTs).maxTs =
                (processEvents cfg rest cache counts
                  (max maxTs (e.c.createdAt.getD e.nowFallback))).maxTs := by
              simp only [processEvents]
              rw [if_neg hskip, if_neg (by simp [hrep]), if_neg (by simp [hrev]),
                if_pos hrt]
            obtain ⟨h1, h2, h3⟩ := ih cache counts
              (max maxTs (e.c.createdAt.getD e.nowFallback))
            rw [hres]
            exact maxTs_combine maxTs e rest _ h1 h2 h3
          · cases hsub : e.submitOk with
            | true =>
              have hres : (processEvents cfg (e :: rest) cache counts maxTs).maxTs =
                  (processEvents cfg rest
                    (markProcessed cache counts e.c.id e.markTime).1
                    (markProcessed cache counts e.c.id e.markTime).2
                    (max maxTs (e.c.createdAt.getD e.nowFallback))).maxTs := by
                simp only [processEvents]
                rw [if_neg hskip, if_neg (by simp [hrep]), if_neg (by simp [hrev]),
                  if_neg hrt, if_pos hsub]
              obtain ⟨h1, h2, h3⟩ := ih (markProcessed cache counts e.c.id e.markTime).1
                (markProcessed cache counts e.c.id e.markTime).2
                (max maxTs (e.c.createdAt.getD e.nowFallback))
              rw [hres]
              exact maxTs_combine maxTs e rest _ h1 h2 h3
            | false =>
              have hres : (processEvents cfg (e :: rest) cache counts maxTs).maxTs =
                  (processEvents cfg rest cache counts
                    (max maxTs (e.c.createdAt.getD e.nowFallback))).maxTs := by
                simp only [processEvents]
                rw [if_neg hskip, if_neg (by simp [hrep]), if_neg (by simp [hrev]),
                  if_neg hrt, if_neg (by simp [hsub])]
              obtain ⟨h1, h2, h3⟩ := ih cache counts
                (max maxTs (e.c.createdAt.getD e.nowFallback))
              rw [hres]
              exact maxTs_combine maxTs e rest _ h1 h2 h3

/-- C3: across poll cycles of the Comment Monitor the watermark
`_last_since` never decreases; when a cycle actually runs (monitor enabled,
non-empty fetch) the new watermark bounds every parsed `created_at` of the
fetched comments, and — when every fetched comment's `created_at` parses —
it equals either the previous watermark or one of those parsed timestamps,
i.e. their maximum. -/
theorem checkComments_watermark (cfg : MonCfg) (st : MonState)
    (events : List CEvent) (cleanupNow : Int) :
    (st.lastSince ≤ (checkComments cfg st events cleanupNow).1.lastSince) ∧
    (cfg.pluginEnable = true → cfg.monitorEnable = true →
      ∀ e ∈ events, ∀ v : Int, e.c.createdAt = some v →
        v ≤ (checkComments cfg st events cleanupNow).1.lastSince) ∧
    (cfg.pluginEnable = true → cfg.monitorEnable = true → events ≠ [] →
      (∀ e ∈ events, e.c.createdAt ≠ none) →
      ((checkComments cfg st events cleanupNow).1.lastSince = st.lastSince ∨
       ∃ e ∈ events, e.c.createdAt =
         some (checkComments cfg st events cleanupNow).1.lastSince)) := by
  cases hpe : cfg.pluginEnable with
  | false =>
    have hres : checkComments cfg st events cleanupNow = (st, []) := by
      simp only [checkComments]
      rw [if_pos (by simp [hpe])]
    rw [hres]
    exact ⟨le_refl _, fun h => absurd h (by simp [hpe]), fun h => absurd h (by simp [hpe])⟩
  | true =>
    cases hme : cfg.monitorEnable with
    | false =>
      have hres : checkComments cfg st events cleanupNow = (st, []) := by
        simp only [checkComments]
        rw [if_neg (by simp [hpe]), if_pos (by simp [hme])]
      rw [hres]
      exact ⟨le_refl _, fun _ h => absurd h (by simp [hme]),
        fun _ h => absurd h (by simp [hme])⟩
    | true =>
      cases hev : events.isEmpty with
      | true =>
        have hres : checkComments cfg st events cleanupNow = (st, []) := by
          simp only [checkComments]
          rw [if_neg (by simp [hpe]), if_neg (by simp [hme]), if_pos hev]
        rw [hres]
        have hnil : events = [] := List.isEmpty_iff.mp hev
        refine ⟨le_refl _, ?_, ?_⟩
        · intro _ _ e he
          rw [hnil] at he
          exact absurd he (List.not_mem_nil e)
        · intro _ _ hne
          exact absurd hnil hne
      | false =>
        have hres : (checkComments cfg st events cleanupNow).1.lastSince =
            (processEvents cfg events st.cache st.counts st.lastSince).maxTs := by
          simp only [checkComments]
          rw [if_neg (by simp [hpe]), if_neg (by simp [hme]), if_neg (by simp [hev])]
        obtain ⟨h1, h2, h3⟩ := processEvents_maxTs cfg events st.cache st.counts st.lastSince
        rw [hres]
        refine ⟨h1, ?_, ?_⟩
        · intro _ _ e he v hv
          have := h2 e he
          rwa [hv, Option.getD_some] at this
        · intro _ _ _ hall
          rcases h3 with h | ⟨e, he, hv⟩
          · exact Or.inl h
          · obtain ⟨u, hu⟩ := Option.ne_none_iff_exists'.mp (hall e he)
            rw [hu, Option.getD_some] at hv
            exact Or.inr ⟨e, he, by rw [hu, hv]⟩

/-! ## C5 — no reprocessing of cached comment ids -/

theorem lookupD_dictSet_isSome (d : List (String × Int)) (k k' : String) (v : Int)
    (h : (lookupD d k).isSome = true) :
    (lookupD (dictSet d k' v) k).isSome = true := by
  by_cases hk : k = k'
  · subst hk
    rw [lookupD_dictSet_self]
    rfl
  · rw [lookupD_dictSet_ne d v hk]
    exact h

theorem processEvents_log_skip (cfg : MonCfg) (events : List CEvent) (id : String)
    (hded : cfg.enableDedup = true) :
    ∀ (cache counts : List (String × Int)) (maxTs : Int),
      (lookupD cache id).isSome = true →
      id ∉ (processEvents cfg events cache counts maxTs).log := by
  induction events with
  | nil =>
    intro cache counts maxTs _
    simp [processEvents]
  | cons e rest ih =>
    intro cache counts maxTs hin
    by_cases hskip : shouldSkip cfg cache counts e.c = true
    · have hres : (processEvents cfg (e :: rest) cache counts maxTs).log =
          (processEvents cfg rest cache counts
            (max maxTs (e.c.createdAt.getD e.nowFallback))).log := by
        simp only [processEvents]
        rw [if_pos hskip]
      rw [hres]
      exact ih cache counts _ hin
    · have hne : e.c.id ≠ id := by
        intro heq
        apply hskip
        simp [shouldSkip, hded, heq, hin]
      have hin' : (lookupD (markProcessed cache counts e.c.id e.markTime).1 id).isSome
          = true := lookupD_dictSet_isSome cache id e.c.id e.markTime hin
      cases hrep : cfg.enableReply with
      | false =>
        have hres : (processEvents cfg (e :: rest) cache counts maxTs).log =
            (processEvents cfg rest
              (markProcessed cache counts e.c.id e.markTime).1
              (markProcessed cache counts e.c.id e.markTime).2
              (max maxTs (e.c.createdAt.getD e.nowFallback))).log := by
          simp only [processEvents]
          rw [if_neg hskip, if_pos (by simp [hrep])]
        rw [hres]
        exact ih _ _ _ hin'
      | true =>
        cases hrev : cfg.enableReview with
        | true =>
          have hres : (processEvents cfg (e :: rest) cache counts maxTs).log =
              (processEvents cfg rest
                (markProcessed cache counts e.c.id e.markTime).1
                (markProcessed cache counts e.c.id e.markTime).2
                (max maxTs (e.c.createdAt.getD e.nowFallback))).log := by
            simp only [processEvents]
            rw [if_neg hskip, if_neg (by simp [hrep]), if_pos hrev]
          rw [hres]
          exact ih _ _ _ hin'
        | false =>
          by_cases hrt : e.replyText = ""
          · have hres : (processEvents cfg (e :: rest) cache counts maxTs).log =
                e.c.id :: (processEvents cfg rest cache counts
                  (max maxTs (e.c.createdAt.getD e.nowFallback))).log := by
              simp only [processEvents]
              rw [if_neg hskip, if_neg (by simp [hrep]), if_neg (by simp [hrev]),
                if_pos hrt]
            rw [hres]
            intro hmem
            rcases List.mem_cons.mp hmem with heq | hmem
            · exact hne heq.symm
            · exact ih cache counts _ hin hmem
          · cases hsub : e.submitOk with
            | true =>
              have hres : (processEvents cfg (e :: rest) cache counts maxTs).log =
                  e.c.id :: (processEvents cfg rest
                    (markProcessed cache counts e.c.id e.markTime).1
                    (markProcessed cache counts e.c.id e.markTime).2
                    (max maxTs (e.c.createdAt.getD e.nowFallback))).log := by
                simp only [processEvents]
                rw [if_neg hskip, if_neg (by simp [hrep]), if_neg (by simp [hrev]),
                  if_neg hrt, if_pos hsub]
              rw [hres]
              intro hmem
              rcases List.mem_cons.mp hmem with heq | hmem
              · exact hne heq.symm
              · exact ih _ _ _ hin' hmem
            | false =>
              have hres : (processEvents cfg (e :: rest) cache counts maxTs).log =
                  e.c.id :: (processEvents cfg rest cache counts
                    (max maxTs (e.c.createdAt.getD e.nowFallback))).log := by
                simp only [processEvents]
                rw [if_neg hskip, if_neg (by simp [hrep]), if_neg (by simp [hrev]),
                  if_neg hrt, if_neg (by simp [hsub])]
              rw [hres]
              intro hmem
              rcases List.mem_cons.mp hmem with heq | hmem
              · exact hne heq.symm
              · exact ih cache counts _ hin hmem

/-- C5 (amended): provided deduplication is enabled
(`dedup.enable_dedup`, the default), the Comment Monitor never processes —
never generates or submits a reply for — a comment whose id is already a
key of its processed-cache: every such comment is skipped throughout the
cycle.  (With deduplication disabled the claim fails, see the
counterexample.) -/
theorem checkComments_no_reprocess (cfg : MonCfg) (st : MonState)
    (events : List CEvent) (cleanupNow : Int) (id : String)
    (hded : cfg.enableDedup = true)
    (hin : (lookupD st.cache id).isSome = true) :
    id ∉ (checkComments cfg st events cleanupNow).2 := by
  cases hpe : cfg.pluginEnable with
  | false => simp [checkComments, hpe]
  | true =>
    cases hme : cfg.monitorEnable with
    | false => simp [checkComments, hpe, hme]
    | true =>
      cases hev : events.isEmpty with
      | true => simp [checkComments, hpe, hme, hev]
      | false =>
        have hres : (checkComments cfg st events cleanupNow).2 =
            (processEvents cfg events st.cache st.counts st.lastSince).log := by
          simp only [checkComments]
          rw [if_neg (by simp [hpe]), if_neg (by simp [hme]), if_neg (by simp [hev])]
        rw [hres]
        exact processEvents_log_skip cfg events id hded st.cache st.counts st.lastSince hin

/-- Witness for `checkComments_no_reprocess`: with dedup enabled and the id
`"c1"` cached, a cycle fetching a fresh `"c1"` comment generates no reply
for it. -/
theorem checkComments_no_reprocess_witness :
    "c1" ∉ (checkComments
      ⟨true, true, true, true, false, [], [], [], 1, 86400, 200⟩
      ⟨0, [("c1", 100)], [("c1", 1)]⟩
      [⟨⟨"c1", "p", "hi", "v", some 50⟩, 0, "re", true, 200⟩] 300).2 :=
  checkComments_no_reprocess
    ⟨true, true, true, true, false, [], [], [], 1, 86400, 200⟩
    ⟨0, [("c1", 100)], [("c1", 1)]⟩
    [⟨⟨"c1", "p", "hi", "v", some 50⟩, 0, "re", true, 200⟩] 300 "c1" rfl (by decide)

/-- C5 counterexample: with deduplication disabled
(`dedup.enable_dedup = false`) and the per-comment reply cap disabled
(`max_replies_per_comment = 0`), a comment whose id `"c1"` is present
(unexpired) in the processed-cache is processed again: the cycle generates
and submits a reply for it. -/
theorem checkComments_dedup_cex :
    (lookupD ([("c1", 100)] : List (String × Int)) "c1").isSome = true ∧
    "c1" ∈ (checkComments
      ⟨true, true, false, true, false, [], [], [], 0, 86400, 200⟩
      ⟨0, [("c1", 100)], [("c1", 1)]⟩
      [⟨⟨"c1", "p", "hi", "v", some 50⟩, 0, "re", true, 200⟩] 300).2 := by
  constructor
  · rfl
  · decide

/-! ## C4 — cache cleanup: TTL expiry, size bound, oldest-first eviction -/

theorem dictPops_eq (ks : List String) : ∀ d : List (String × Int),
    dictPops d ks = d.filter fun p => !ks.contains p.1 := by
  induction ks with
  | nil =>
    intro d
    have h : (fun p : String × Int => !(([] : List String).contains p.1)) =
        fun _ => true := by
      funext p
      rfl
    show d = _
    rw [h, List.filter_true]
  | cons k ks ih =>
    intro d
    show dictPops (dictPop d k) ks = _
    rw [ih (dictPop d k), dictPop, List.filter_filter]
    apply List.filter_congr
    intro p _
    by_cases hk : p.1 = k <;> simp [hk]

theorem nodup_key_eq {l : List (String × Int)} (h : (l.map Prod.fst).Nodup)
    {p q : String × Int} (hp : p ∈ l) (hq : q ∈ l) (hk : p.1 = q.1) : p = q :=
  List.inj_on_of_nodup_map h hp hq hk

theorem dictPops_nodup_keys {d : List (String × Int)} (ks : List String)
    (h : (d.map Prod.fst).Nodup) : ((dictPops d ks).map Prod.fst).Nodup := by
  rw [dictPops_eq]
  exact ((List.filter_sublist d).map Prod.fst).nodup h

/-- The size-eviction pass of `_cleanup_cache`: once the TTL pass left
`C1` (with pairwise-distinct keys) above the bound, popping the keys of the
first `len - cache_size` entries of the stamp-sorted list brings the cache
within the bound, evicts oldest stamps first, and removes nothing else. -/
theorem sizeTrim_spec (C1 : List (String × Int)) (cacheSize : Int)
    (hnd : (C1.map Prod.fst).Nodup) (htrim : cacheSize < (C1.length : Int))
    (hsz : 0 ≤ cacheSize) :
    (((dictPops C1 (((List.insertionSort byStamp C1).take
        (((C1.length : Int) - cacheSize).toNat)).map Prod.fst)).length : Int) ≤ cacheSize) ∧
    (∀ p ∈ C1, p ∉ dictPops C1 (((List.insertionSort byStamp C1).take
        (((C1.length : Int) - cacheSize).toNat)).map Prod.fst) →
      ∀ q ∈ dictPops C1 (((List.insertionSort byStamp C1).take
        (((C1.length : Int) - cacheSize).toNat)).map Prod.fst), p.2 ≤ q.2) ∧
    (∀ p ∈ dictPops C1 (((List.insertionSort byStamp C1).take
        (((C1.length : Int) - cacheSize).toNat)).map Prod.fst), p ∈ C1) := by
  set S := List.insertionSort byStamp C1 with hS
  set m := ((C1.length : Int) - cacheSize).toNat with hmdef
  set Ev := (S.take m).map Prod.fst with hEv
  have hC2f : dictPops C1 Ev = C1.filter fun p => !Ev.contains p.1 := dictPops_eq Ev C1
  have hperm : List.Perm S C1 := List.perm_insertionSort byStamp C1
  have hlenS : S.length = C1.length := hperm.length_eq
  have hm : (m : Int) = (C1.length : Int) - cacheSize :=
    Int.toNat_of_nonneg (by omega)
  refine ⟨?_, ?_, ?_⟩
  · have hcount : (dictPops C1 Ev).length =
        C1.countP fun p => !Ev.contains p.1 := by
      rw [hC2f]
      exact (List.countP_eq_length_filter (fun p : String × Int => !Ev.contains p.1) C1).symm
    have h2 : C1.countP (fun p => !Ev.contains p.1) =
        S.countP fun p => !Ev.contains p.1 :=
      ((hperm.countP_eq fun p => !Ev.contains p.1)).symm
    have h3 : S.countP (fun p => !Ev.contains p.1) =
        (S.take m).countP (fun p => !Ev.contains p.1) +
        (S.drop m).countP fun p => !Ev.contains p.1 := by
      conv_lhs => rw [← List.take_append_drop m S]
      rw [List.countP_append]
    have h4 : (S.take m).countP (fun p => !Ev.contains p.1) = 0 := by
      apply List.countP_eq_zero.mpr
      intro a ha
      have hin : a.1 ∈ Ev := by
        rw [hEv]
        exact List.mem_map_of_mem Prod.fst ha
      simp [hin]
    have h5 : (S.drop m).countP (fun p => !Ev.contains p.1) ≤ S.length - m :=
      le_of_le_of_eq (List.countP_le_length (fun p : String × Int => !Ev.contains p.1)) (List.length_drop m S)
    have h6 : (dictPops C1 Ev).length ≤ S.length - m := by
      rw [hcount, h2, h3, h4]
      simpa using h5
    omega
  · intro p hp hnot q hq
    have hpEv : p.1 ∈ Ev := by
      by_contra hne
      apply hnot
      rw [hC2f, List.mem_filter]
      exact ⟨hp, by simp [hne]⟩
    obtain ⟨s, hst, hsk⟩ := List.mem_map.mp hpEv
    have hsC1 : s ∈ C1 := hperm.mem_iff.mp (List.take_subset m S hst)
    have hsp : s = p := nodup_key_eq hnd hsC1 hp hsk
    have hqC1 : q ∈ C1 := by
      rw [hC2f] at hq
      exact (List.mem_filter.mp hq).1
    have hqEv : q.1 ∉ Ev := by
      rw [hC2f, List.mem_filter] at hq
      intro hin
      have := hq.2
      simp [hin] at this
    have hqS : q ∈ S := hperm.mem_iff.mpr hqC1
    have hqsplit : q ∈ S.take m ++ S.drop m := by rwa [List.take_append_drop]
    rcases List.mem_append.mp hqsplit with hqt | hqd
    · exact absurd (List.mem_map_of_mem Prod.fst hqt) hqEv
    · have hsort : List.Pairwise byStamp (S.take m ++ S.drop m) := by
        rw [List.take_append_drop]
        exact List.sorted_insertionSort byStamp C1
      have hle := (List.pairwise_append.mp hsort).2.2 s hst q hqd
      rw [hsp] at hle
      exact hle
  · intro p hp
    rw [hC2f] at hp
    exact (List.mem_filter.mp hp).1

/-- C4: after `_cleanup_cache` (run at the end of each poll cycle, with
unique dict keys and a non-negative configured bound) the processed-cache
holds no entry older than the TTL (`now - stamp > ttl`), its size is within
the configured `cache_size`, and any entry it dropped that had not expired
was dropped only in favour of entries with stamps at least as new — the
oldest-stamped entries are evicted first. -/
theorem cleanupCache_bounds (cache counts : List (String × Int)) (ttl cacheSize now : Int)
    (hnd : (cache.map Prod.fst).Nodup) (hsz : 0 ≤ cacheSize) :
    (∀ p ∈ (cleanupCache cache counts ttl cacheSize now).1, now - p.2 ≤ ttl) ∧
    (((cleanupCache cache counts ttl cacheSize now).1.length : Int) ≤ cacheSize) ∧
    (∀ p ∈ cache, p ∉ (cleanupCache cache counts ttl cacheSize now).1 →
      now - p.2 ≤ ttl →
      ∀ q ∈ (cleanupCache cache counts ttl cacheSize now).1, p.2 ≤ q.2) := by
  have hC1f : dictPops cache ((cache.filter fun p => ttl < now - p.2).map Prod.fst) =
      cache.filter fun p =>
        !(((cache.filter fun p => ttl < now - p.2).map Prod.fst).contains p.1) :=
    dictPops_eq _ cache
  have hC1mem : ∀ p ∈ dictPops cache ((cache.filter fun p => ttl < now - p.2).map Prod.fst),
      p ∈ cache ∧ now - p.2 ≤ ttl := by
    intro p hp
    rw [hC1f, List.mem_filter] at hp
    refine ⟨hp.1, ?_⟩
    by_contra hlt
    have hpe : p.1 ∈ (cache.filter fun p => ttl < now - p.2).map Prod.fst :=
      List.mem_map_of_mem Prod.fst
        (List.mem_filter.mpr ⟨hp.1, by simpa using not_le.mp hlt⟩)
    have h2 := hp.2
    simp [hpe] at h2
  have hC1in : ∀ p ∈ cache, now - p.2 ≤ ttl →
      p ∈ dictPops cache ((cache.filter fun p => ttl < now - p.2).map Prod.fst) := by
    intro p hp hle
    rw [hC1f, List.mem_filter]
    refine ⟨hp, ?_⟩
    cases hb : (((cache.filter fun p => ttl < now - p.2).map Prod.fst).contains p.1) with
    | false => rfl
    | true =>
      exfalso
      have hmem : p.1 ∈ (cache.filter fun p => ttl < now - p.2).map Prod.fst := by
        simpa using hb
      obtain ⟨r, hr, hrk⟩ := List.mem_map.mp hmem
      have hrc : r ∈ cache := (List.mem_filter.mp hr).1
      have hrp : r = p := nodup_key_eq hnd hrc hp hrk
      have hexp := (List.mem_filter.mp hr).2
      rw [hrp] at hexp
      simp at hexp
      omega
  have hC1nd : ((dictPops cache
      ((cache.filter fun p => ttl < now - p.2).map Prod.fst)).map Prod.fst).Nodup :=
    dictPops_nodup_keys _ hnd
  by_cases htrim : cacheSize <
      ((dictPops cache ((cache.filter fun p => ttl < now - p.2).map Prod.fst)).length : Int)
  · have hres : (cleanupCache cache counts ttl cacheSize now).1 =
        dictPops (dictPops cache ((cache.filter fun p => ttl < now - p.2).map Prod.fst))
          (((List.insertionSort byStamp
            (dictPops cache ((cache.filter fun p => ttl < now - p.2).map Prod.fst))).take
            ((((dictPops cache
              ((cache.filter fun p => ttl < now - p.2).map Prod.fst)).length : Int)
              - cacheSize).toNat)).map Prod.fst) := by
      simp only [cleanupCache]
      rw [if_pos htrim]
    obtain ⟨hsize, hold, hsub⟩ := sizeTrim_spec _ cacheSize hC1nd htrim hsz
    rw [hres]
    refine ⟨?_, hsize, ?_⟩
    · intro p hp
      exact (hC1mem p (hsub p hp)).2
    · intro p hp hnot hle
      exact hold p (hC1in p hp hle) hnot
  · have hres : (cleanupCache cache counts ttl cacheSize now).1 =
        dictPops cache ((cache.filter fun p => ttl < now - p.2).map Prod.fst) := by
      simp only [cleanupCache]
      rw [if_neg htrim]
    rw [hres]
    refine ⟨?_, not_lt.mp htrim, ?_⟩
    · intro p hp
      exact (hC1mem p hp).2
    · intro p hp hnot hle
      exact absurd (hC1in p hp hle) hnot

/-- Witness for `cleanupCache_bounds`: a three-entry cache with TTL 100 and
bound 2 at time 40 keeps at most two entries, all unexpired. -/
theorem cleanupCache_bounds_witness :
    (∀ p ∈ (cleanupCache [("a", 10), ("b", 5), ("c", 30)] [("a", 1), ("b", 1), ("c", 1)]
      100 2 40).1, (40 : Int) - p.2 ≤ 100) ∧
    (((cleanupCache [("a", 10), ("b", 5), ("c", 30)] [("a", 1), ("b", 1), ("c", 1)]
      100 2 40).1.length : Int) ≤ 2) :=
  ⟨(cleanupCache_bounds [("a", 10), ("b", 5), ("c", 30)] [("a", 1), ("b", 1), ("c", 1)]
      100 2 40 (by decide) (by decide)).1,
   (cleanupCache_bounds [("a", 10), ("b", 5), ("c", 30)] [("a", 1), ("b", 1), ("c", 1)]
      100 2 40 (by decide) (by decide)).2.1⟩
